import Mathlib

/-!
Verification of the arithmetic expression evaluator in `src/parser.rs`
(tokenizer, precedence-climbing parser, evaluator).

Modelling conventions:
* `f64` values are modelled by `F`: exact rationals extended with the IEEE-754
  special values `+inf`, `-inf` and `NaN`.  The model has a single zero and no
  rounding; every floating-point computation exercised in this development
  (small integer literals, short decimal literals, division by zero) is exact
  in `f64` as well, so the model agrees with IEEE-754 double arithmetic on all
  inputs appearing in the theorems below.
* Rust panics (`unwrap()` on `None`, the `panic!` arms of `precedence`,
  `apply_unary` and `apply_binary`) are modelled by an explicit `panicked`
  result constructor, never by meta-level failure.
* The tokenizer loop and the mutually recursive parser functions are total
  functions driven by a fuel parameter; exhausting the fuel is modelled by the
  explicit `outOfFuel` constructor.  The wrappers `tokenize` and `prat` supply
  fuel that is proved sufficient (`outOfFuel` is unreachable there), so the
  wrappers faithfully model the Rust functions.
-/

/-- Exact rational addition, written with `mkRat` so that it evaluates by
kernel reduction (the library `Rat.add` is irreducible). -/
def qadd (a b : ℚ) : ℚ := mkRat (a.num * b.den + b.num * a.den) (a.den * b.den)

/-- Exact rational negation, written with `mkRat` so that it evaluates by
kernel reduction. -/
def qneg (a : ℚ) : ℚ := mkRat (-a.num) a.den

/-- Exact rational multiplication, written with `mkRat` so that it evaluates
by kernel reduction. -/
def qmul (a b : ℚ) : ℚ := mkRat (a.num * b.num) (a.den * b.den)

/-- Exact rational division (for a nonzero divisor), written with `mkRat` so
that it evaluates by kernel reduction. -/
def qdiv (a b : ℚ) : ℚ :=
  if 0 ≤ b.num then mkRat (a.num * b.den) (a.den * b.num.natAbs)
  else mkRat (-(a.num * b.den)) (a.den * b.num.natAbs)

/-- Model of `f64`: exact rationals plus the IEEE-754 special values.
Single (positive) zero, no rounding; exact on every computation used here. -/
inductive F
  | finite (q : ℚ)
  | posInf
  | negInf
  | nan
deriving DecidableEq, Repr

/-- IEEE-754 negation on the `f64` model (`-x`). -/
def F.neg : F → F
  | F.finite q => F.finite (qneg q)
  | F.posInf => F.negInf
  | F.negInf => F.posInf
  | F.nan => F.nan

/-- IEEE-754 addition on the `f64` model (`x + y`), exact on finite values. -/
def F.add : F → F → F
  | F.nan, _ => F.nan
  | _, F.nan => F.nan
  | F.finite a, F.finite b => F.finite (qadd a b)
  | F.finite _, F.posInf => F.posInf
  | F.finite _, F.negInf => F.negInf
  | F.posInf, F.finite _ => F.posInf
  | F.negInf, F.finite _ => F.negInf
  | F.posInf, F.posInf => F.posInf
  | F.negInf, F.negInf => F.negInf
  | F.posInf, F.negInf => F.nan
  | F.negInf, F.posInf => F.nan

/-- IEEE-754 subtraction on the `f64` model: `x - y = x + (-y)` (the IEEE
definition of subtraction). -/
def F.sub (a b : F) : F := F.add a (F.neg b)

/-- IEEE-754 multiplication on the `f64` model (`x * y`), exact on finite
values; `inf * 0` is `NaN`. -/
def F.mul : F → F → F
  | F.nan, _ => F.nan
  | _, F.nan => F.nan
  | F.finite a, F.finite b => F.finite (qmul a b)
  | F.finite a, F.posInf => if 0 < a then F.posInf else if a < 0 then F.negInf else F.nan
  | F.finite a, F.negInf => if 0 < a then F.negInf else if a < 0 then F.posInf else F.nan
  | F.posInf, F.finite b => if 0 < b then F.posInf else if b < 0 then F.negInf else F.nan
  | F.negInf, F.finite b => if 0 < b then F.negInf else if b < 0 then F.posInf else F.nan
  | F.posInf, F.posInf => F.posInf
  | F.posInf, F.negInf => F.negInf
  | F.negInf, F.posInf => F.negInf
  | F.negInf, F.negInf => F.posInf

/-- IEEE-754 division on the `f64` model (`x / y`), exact on finite values;
division by (the single, positive) zero gives `+inf`, `-inf` or `NaN`
according to the sign of the dividend, as IEEE-754 prescribes for `+0`. -/
def F.div : F → F → F
  | F.nan, _ => F.nan
  | _, F.nan => F.nan
  | F.finite a, F.finite b =>
      if b = 0 then (if 0 < a then F.posInf else if a < 0 then F.negInf else F.nan)
      else F.finite (qdiv a b)
  | F.finite _, F.posInf => F.finite 0
  | F.finite _, F.negInf => F.finite 0
  | F.posInf, F.finite b => if b < 0 then F.negInf else F.posInf
  | F.negInf, F.finite b => if b < 0 then F.posInf else F.negInf
  | F.posInf, F.posInf => F.nan
  | F.posInf, F.negInf => F.nan
  | F.negInf, F.posInf => F.nan
  | F.negInf, F.negInf => F.nan

/-- IEEE-754 equality on the `f64` model (`==` on `f64`): `NaN` is not equal
to anything, including itself. -/
def F.ieeeEq : F → F → Bool
  | F.finite a, F.finite b => decide (a = b)
  | F.posInf, F.posInf => true
  | F.negInf, F.negInf => true
  | _, _ => false

/-- `enum Token` from `src/parser.rs`. -/
inductive Token
  | Num (value : F)
  | Plus
  | Minus
  | Star
  | Slash
  | LeftParen
  | RightParen
  | Eof
deriving DecidableEq, Repr

/-- `Token::is_unary_op` from `src/parser.rs`. -/
def Token.is_unary_op : Token → Bool
  | Token.Plus => true
  | Token.Minus => true
  | _ => false

/-- `Token::is_binary_op` from `src/parser.rs`. -/
def Token.is_binary_op : Token → Bool
  | Token.Plus => true
  | Token.Minus => true
  | Token.Star => true
  | Token.Slash => true
  | _ => false

/-- `Token::precedence` from `src/parser.rs`; the `panic!("Invalid operator")`
arm is modelled by `none`. -/
def Token.precedence : Token → Option Nat
  | Token.Plus => some 1
  | Token.Minus => some 1
  | Token.Star => some 2
  | Token.Slash => some 2
  | _ => none

/-- The derived `PartialEq` on `Token`: constructor-wise equality, with the
`Num` payloads compared by `f64` IEEE equality. -/
def tokenEq : Token → Token → Bool
  | Token.Num a, Token.Num b => F.ieeeEq a b
  | Token.Plus, Token.Plus => true
  | Token.Minus, Token.Minus => true
  | Token.Star, Token.Star => true
  | Token.Slash, Token.Slash => true
  | Token.LeftParen, Token.LeftParen => true
  | Token.RightParen, Token.RightParen => true
  | Token.Eof, Token.Eof => true
  | _, _ => false

/-- `enum Error` from `src/error.rs`. -/
inductive Error
  | InvalidBinOp
  | InvalidUnaryOp
  | InvalidIdent
  | InvalidNumber (text : String)
  | UnexpectedChar (c : Char)
deriving DecidableEq, Repr

/-- `enum Expr` from `src/parser.rs`. -/
inductive Expr
  | Num (value : F)
  | Plus (expr : Expr)
  | Minus (expr : Expr)
  | Add (lhs rhs : Expr)
  | Sub (lhs rhs : Expr)
  | Mul (lhs rhs : Expr)
  | Div (lhs rhs : Expr)
deriving DecidableEq, Repr

/-- `Expr::eval` from `src/parser.rs`. -/
def Expr.eval : Expr → F
  | Expr.Num num => num
  | Expr.Plus expr => expr.eval
  | Expr.Minus expr => F.neg expr.eval
  | Expr.Add lhs rhs => F.add lhs.eval rhs.eval
  | Expr.Sub lhs rhs => F.sub lhs.eval rhs.eval
  | Expr.Mul lhs rhs => F.mul lhs.eval rhs.eval
  | Expr.Div lhs rhs => F.div lhs.eval rhs.eval

/-- `apply_unary` from `src/parser.rs`; the `panic!("Illegal unary apply")`
arm is modelled by `none`. -/
def apply_unary : Token → Expr → Option Expr
  | Token.Plus, expr => some (Expr.Plus expr)
  | Token.Minus, expr => some (Expr.Minus expr)
  | _, _ => none

/-- `apply_binary` from `src/parser.rs`; the `panic!("Illegal binary apply")`
arm is modelled by `none`. -/
def apply_binary : Token → Expr → Expr → Option Expr
  | Token.Plus, lhs, rhs => some (Expr.Add lhs rhs)
  | Token.Minus, lhs, rhs => some (Expr.Sub lhs rhs)
  | Token.Star, lhs, rhs => some (Expr.Mul lhs rhs)
  | Token.Slash, lhs, rhs => some (Expr.Div lhs rhs)
  | _, _, _ => none

/-- The character class consumed greedily by the number scanner in `parse`:
ASCII digits and the decimal point. -/
def numChar (c : Char) : Bool := c.isDigit || c == '.'

/-- Numeric value of a run of ASCII digits, most significant first
(the integer or fractional digit block of a literal). -/
def digitsToNat (cs : List Char) : Nat :=
  cs.foldl (fun a c => 10 * a + (c.toNat - 48)) 0

/-- Exact value of a decimal literal made of digits with at most one dot:
integer part plus fractional part. -/
def ratOfNumStr (cs : List Char) : ℚ :=
  qadd (mkRat (digitsToNat (cs.takeWhile (fun c => c != '.'))) 1)
    (mkRat (digitsToNat ((cs.dropWhile (fun c => c != '.')).drop 1))
      ((10 : Nat) ^ ((cs.dropWhile (fun c => c != '.')).drop 1).length))

/-- Modelled from Rust std: `str::parse::<f64>` (`f64::from_str`) restricted
to the strings the tokenizer can accumulate, which consist only of ASCII
digits and dots.  Such a string parses iff it contains at least one digit and
at most one dot; the resulting value is modelled exactly (no claim exercises
`f64` rounding). -/
def parseFloat (cs : List Char) : Option F :=
  if cs.count '.' ≤ 1 ∧ cs.any Char.isDigit then some (F.finite (ratOfNumStr cs))
  else none

/-- Modelled from Rust std: `char::is_whitespace`, i.e. membership in the
Unicode `White_Space` category. -/
def rustWhitespace : List Char :=
  ['\x09', '\x0A', '\x0B', '\x0C', '\x0D', ' ', '\u0085', ' ', ' ',
   ' ', ' ', ' ', ' ', ' ', ' ', ' ',
   ' ', ' ', ' ', ' ', ' ', ' ', ' ',
   ' ', '　']

/-- Modelled from Rust std: `char::is_whitespace`. -/
def isWhitespaceRust (c : Char) : Bool := rustWhitespace.contains c

/-- Result of the tokenizer loop in `parse` (`src/parser.rs`). -/
inductive TRes
  | ok (tokens : List Token)
  | err (e : Error)
  | panicked
  | outOfFuel
deriving DecidableEq, Repr

/-- The tokenizer loop of `parse` in `src/parser.rs` (the `while let Some(c) =
chars.next()` loop), one fuel unit per iteration.  Each iteration consumes at
least one character, so fuel `input.length + 1` is always sufficient.
The `'i'` arm models the short-circuiting
`if chars.next().unwrap() != 'n' || chars.next().unwrap() != 'f'`:
running out of characters there is an `unwrap` panic. -/
def tokenizeAux : Nat → List Char → List Token → TRes
  | 0, _, _ => TRes.outOfFuel
  | _ + 1, [], acc => TRes.ok (acc ++ [Token.Eof])
  | fuel + 1, c :: cs, acc =>
      if c = '(' then tokenizeAux fuel cs (acc ++ [Token.LeftParen])
      else if c = ')' then tokenizeAux fuel cs (acc ++ [Token.RightParen])
      else if c = '+' then tokenizeAux fuel cs (acc ++ [Token.Plus])
      else if c = '-' then tokenizeAux fuel cs (acc ++ [Token.Minus])
      else if c = '*' then tokenizeAux fuel cs (acc ++ [Token.Star])
      else if c = '/' then tokenizeAux fuel cs (acc ++ [Token.Slash])
      else if c = 'i' then
        match cs with
        | [] => TRes.panicked
        | c1 :: cs1 =>
            if c1 ≠ 'n' then TRes.err Error.InvalidIdent
            else
              match cs1 with
              | [] => TRes.panicked
              | c2 :: cs2 =>
                  if c2 ≠ 'f' then TRes.err Error.InvalidIdent
                  else tokenizeAux fuel cs2 (acc ++ [Token.Num F.posInf])
      else if numChar c then
        match parseFloat (c :: cs.takeWhile numChar) with
        | some num => tokenizeAux fuel (cs.dropWhile numChar) (acc ++ [Token.Num num])
        | none => TRes.err (Error.InvalidNumber (String.mk (c :: cs.takeWhile numChar)))
      else if isWhitespaceRust c then tokenizeAux fuel cs acc
      else TRes.err (Error.UnexpectedChar c)

/-- The tokenizer phase of `parse` in `src/parser.rs`: scan the whole input
into a token list ending in the `Eof` sentinel. -/
def tokenize (cs : List Char) : TRes := tokenizeAux (cs.length + 1) cs []

/-- Result of one parser function (`parse_expr` / `parse_unary` /
`parse_binary`): a parsed expression together with the tokens remaining in
the cursor, an `Error`, a Rust panic, or fuel exhaustion. -/
inductive PRes
  | ok (e : Expr) (rest : List Token)
  | err (e : Error)
  | panicked
  | outOfFuel
deriving DecidableEq, Repr

/-- The three mutually recursive parser functions of `src/parser.rs`,
identified by their arguments.  The cursor `State` is the list of tokens not
yet consumed; `peek` of an empty list and `eat` of an empty list are the
`unwrap` panics of `State::peek` / `State::eat`. -/
inductive Call
  | unary (ts : List Token)
  | expr (ts : List Token) (endTok : Token)
  | binary (ts : List Token) (left : Expr) (endTok : Token)

/-- The mutually recursive `parse_expr`, `parse_unary` and `parse_binary`
from `src/parser.rs`, as a single fuel-indexed function (one fuel unit per
call).
* `Call.unary ts`: `parse_unary(state, left)` where `left` is the token the
  caller just peeked (the head of `ts`); peeking an empty cursor panics.
* `Call.expr ts endTok`: `parse_expr(state, end_token)`.
* `Call.binary ts left endTok`: `parse_binary(state, left, end_token)`.
Token comparison with `end_token` uses the derived `PartialEq` (`tokenEq`);
`precedence`, `apply_unary` and `apply_binary` panic (via `none`) outside
their operator domains, exactly as the Rust `panic!` arms. -/
def run : Nat → Call → PRes
  | 0, _ => PRes.outOfFuel
  | _ + 1, Call.unary [] => PRes.panicked
  | fuel + 1, Call.unary (left :: rest) =>
      if left.is_unary_op then
        match run fuel (Call.unary rest) with
        | PRes.ok e rest2 =>
            match apply_unary left e with
            | some e2 => PRes.ok e2 rest2
            | none => PRes.panicked
        | r => r
      else
        match left with
        | Token.LeftParen => run fuel (Call.expr rest Token.RightParen)
        | Token.Num value => PRes.ok (Expr.Num value) rest
        | _ => PRes.err Error.InvalidUnaryOp
  | _ + 1, Call.expr [] _ => PRes.panicked
  | fuel + 1, Call.expr (t :: ts) endTok =>
      match run fuel (Call.unary (t :: ts)) with
      | PRes.ok left rest =>
          match rest with
          | [] => PRes.panicked
          | op :: rest2 =>
              if tokenEq op endTok then PRes.ok left rest2
              else if op.is_binary_op then run fuel (Call.binary (op :: rest2) left endTok)
              else PRes.err Error.InvalidBinOp
      | r => r
  | _ + 1, Call.binary [] _ _ => PRes.panicked
  | fuel + 1, Call.binary (op :: rest) left endTok =>
      match run fuel (Call.unary rest) with
      | PRes.ok right rest2 =>
          match rest2 with
          | [] => PRes.panicked
          | next :: rest3 =>
              if tokenEq next endTok then
                match apply_binary op left right with
                | some e => PRes.ok e rest3
                | none => PRes.panicked
              else if next.is_binary_op then
                match op.precedence, next.precedence with
                | some p1, some p2 =>
                    if p1 < p2 then
                      match run fuel (Call.binary (next :: rest3) right endTok) with
                      | PRes.ok r rest4 =>
                          match apply_binary op left r with
                          | some e => PRes.ok e rest4
                          | none => PRes.panicked
                      | r => r
                    else
                      match apply_binary op left right with
                      | some e => run fuel (Call.binary (next :: rest3) e endTok)
                      | none => PRes.panicked
                | _, _ => PRes.panicked
              else PRes.err Error.InvalidBinOp
      | r => r

/-- Overall result of `parse` in `src/parser.rs`: `Result<Expr>` extended
with the panic and fuel-exhaustion outcomes of the model. -/
inductive Res
  | ok (e : Expr)
  | err (e : Error)
  | panicked
  | outOfFuel
deriving DecidableEq, Repr

/-- `prat` from `src/parser.rs`: run `parse_expr` on the token list with end
token `Eof`, discarding the cursor.  Fuel `2 * |tokens| + 2` is proved
sufficient below (`outOfFuel` is unreachable for tokenizer outputs). -/
def prat (ts : List Token) : Res :=
  match run (2 * ts.length + 2) (Call.expr ts Token.Eof) with
  | PRes.ok e _ => Res.ok e
  | PRes.err e => Res.err e
  | PRes.panicked => Res.panicked
  | PRes.outOfFuel => Res.outOfFuel

/-- `parse` from `src/parser.rs` on an explicit character list: tokenize the
whole line, then run the parser on the token sequence.  A tokenizer error is
returned before the parser ever runs. -/
def parseChars (cs : List Char) : Res :=
  match tokenize cs with
  | TRes.ok ts => prat ts
  | TRes.err e => Res.err e
  | TRes.panicked => Res.panicked
  | TRes.outOfFuel => Res.outOfFuel

/-- `parse` from `src/parser.rs`. -/
def parse (input : String) : Res := parseChars input.data

/-- Parse then evaluate (the per-line pipeline of `main`):
`Some(parse(s)?.eval())`, `none` when parsing does not return `Ok`. -/
def parseEval (s : String) : Option F :=
  match parse s with
  | Res.ok e => some (Expr.eval e)
  | _ => none

/-- A token list as produced by a successful tokenization: an `Eof`-free
prefix followed by the single `Eof` sentinel. -/
def Sent (ts : List Token) : Prop :=
  ∃ ts', ts = ts' ++ [Token.Eof] ∧ Token.Eof ∉ ts'

/-- Safety contract of one parser call on a cursor of length `n`: the call
does not panic, does not exhaust its fuel, and on success the remaining
cursor is strictly shorter and (when `needSent` holds) still ends in the
`Eof` sentinel. -/
def SafeRes (r : PRes) (n : Nat) (needSent : Prop) : Prop :=
  r ≠ PRes.panicked ∧ r ≠ PRes.outOfFuel ∧
    ∀ e rest, r = PRes.ok e rest → rest.length < n ∧ (needSent → Sent rest)

/-- C1: `tokenize("inf")` yields `[Number(+infinity), EndOfInput]`, and a
mismatching character after `i` (as in `"ix"` or `"int"`) yields
`InvalidIdentifier` — but when the input ends before the two characters after
`i` are read (as in `"in"` or `"i"`), the tokenizer does not return
`InvalidIdentifier`: the `chars.next().unwrap()` call panics.  This refutes
the claim's assertion that tokenization fails with the error value and
"does not crash" for those inputs. -/
theorem c1_inf_keyword_end_of_input_panics :
    tokenize "inf".data = TRes.ok [Token.Num F.posInf, Token.Eof] ∧
    tokenize "ix".data = TRes.err Error.InvalidIdent ∧
    tokenize "int".data = TRes.err Error.InvalidIdent ∧
    tokenize "in".data = TRes.panicked ∧
    tokenize "i".data = TRes.panicked := by decide

/-- C2: the parser does NOT produce the standard-precedence-grammar tree.
On `"1 - 2 * 3 - 4"` the claim requires `Sub(Sub(1, Mul(2, 3)), 4)`
(evaluating to `-9`), but `parse_binary` climbs the right side with the same
end token when the consumed operator binds less tightly, so the code produces
the right-grouped tree `Sub(1, Sub(Mul(2, 3), 4))`, which evaluates to `-1`. -/
theorem c2_precedence_climbing_misgroups :
    parse "1 - 2 * 3 - 4" =
      Res.ok (Expr.Sub (Expr.Num (F.finite 1))
        (Expr.Sub (Expr.Mul (Expr.Num (F.finite 2)) (Expr.Num (F.finite 3)))
          (Expr.Num (F.finite 4)))) ∧
    parse "1 - 2 * 3 - 4" ≠
      Res.ok (Expr.Sub (Expr.Sub (Expr.Num (F.finite 1))
        (Expr.Mul (Expr.Num (F.finite 2)) (Expr.Num (F.finite 3))))
          (Expr.Num (F.finite 4))) ∧
    parseEval "1 - 2 * 3 - 4" = some (F.finite (-1)) ∧
    parseEval "1 - 2 * 3 - 4" ≠ some (F.finite (-9)) := by decide

/-- C5: evaluation is a total function over every expression tree (it always
yields a value, there is no failure case), and division follows IEEE-754
float semantics: `eval(parse("1 / 0")) = +inf`,
`eval(parse("-1 / 0")) = -inf`, and `eval(parse("0/0"))` is `NaN`. -/
theorem c5_eval_total_ieee_division :
    (∀ e : Expr, ∃ v : F, Expr.eval e = v) ∧
    parseEval "1 / 0" = some F.posInf ∧
    parseEval "-1 / 0" = some F.negInf ∧
    parseEval "0/0" = some F.nan :=
  ⟨fun e => ⟨e.eval, rfl⟩, by decide, by decide, by decide⟩

/-- C6: operator precedence on the documented examples:
`eval(parse("2 + 3 * 4")) = 14.0` and `eval(parse("(2 + 3) * 4")) = 20.0`. -/
theorem c6_precedence_examples :
    parseEval "2 + 3 * 4" = some (F.finite 14) ∧
    parseEval "(2 + 3) * 4" = some (F.finite 20) := by decide

/-- C7: equal-precedence subtraction is grouped left-to-right:
`eval(parse("10 - 2 - 3")) = 5.0`, not `11.0`. -/
theorem c7_left_associative_subtraction :
    parseEval "10 - 2 - 3" = some (F.finite 5) ∧
    parseEval "10 - 2 - 3" ≠ some (F.finite 11) := by decide

/-- C9: unbalanced parentheses are never accepted: `parse("(1 + 2")` returns
an error (the `RightParen` terminator is missing) and `parse("1 + 2)")`
returns `InvalidBinOp` (the stray `)` sits where a binary continuation or the
end of input is required). -/
theorem c9_unbalanced_parentheses_rejected :
    (∃ e, parse "(1 + 2" = Res.err e) ∧
    parse "1 + 2)" = Res.err Error.InvalidBinOp :=
  ⟨⟨Error.InvalidBinOp, by decide⟩, by decide⟩

/-- C10: `parse` tokenizes the whole line before any parsing begins, so any
tokenizer error is returned as is, taking priority over every syntactic
error: in particular `parse("* @")` returns `UnexpectedCharacter('@')`, not
the `InvalidUnaryOperator` the leading `*` would provoke. -/
theorem c10_lexical_error_priority :
    (∀ (cs : List Char) (e : Error),
        tokenize cs = TRes.err e → parseChars cs = Res.err e) ∧
    parse "* @" = Res.err (Error.UnexpectedChar '@') := by
  constructor
  · intro cs e h
    unfold parseChars
    rw [h]
  · decide

/-- Witness for C10 at the concrete input `"* @"`: its tokenization fails
with `UnexpectedCharacter('@')`, and the theorem then forces `parse` to
return exactly that error. -/
theorem c10_lexical_error_priority_witness :
    parseChars "* @".data = Res.err (Error.UnexpectedChar '@') :=
  c10_lexical_error_priority.1 "* @".data (Error.UnexpectedChar '@') (by decide)

theorem takeWhile_all {α : Type} {p : α → Bool} {l : List α}
    (h : ∀ a ∈ l, p a = true) : l.takeWhile p = l :=
  List.takeWhile_eq_self_iff.mpr h

theorem dropWhile_all {α : Type} {p : α → Bool} {l : List α}
    (h : ∀ a ∈ l, p a = true) : l.dropWhile p = [] :=
  List.dropWhile_eq_nil_iff.mpr h

theorem numChar_facts (c : Char) (h : numChar c = true) :
    ¬c = '(' ∧ ¬c = ')' ∧ ¬c = '+' ∧ ¬c = '-' ∧ ¬c = '*' ∧ ¬c = '/' ∧ ¬c = 'i' := by
  refine ⟨?_, ?_, ?_, ?_, ?_, ?_, ?_⟩ <;> rintro rfl <;> revert h <;> decide

/-- C4: tokenizing a nonempty string made only of digits and dots yields
exactly `[Number(parse_float(s)), EndOfInput]` when the string parses as a
float (at most one dot, at least one digit); and whenever the greedy
digit/dot scan accumulates a run that does not parse as a float, the
tokenizer fails with `InvalidNumber` carrying exactly that text. -/
theorem c4_decimal_literal_tokenization :
    (∀ (cs : List Char) (v : F), cs ≠ [] → (∀ c ∈ cs, numChar c = true) →
        parseFloat cs = some v → tokenize cs = TRes.ok [Token.Num v, Token.Eof]) ∧
    (∀ (fuel : Nat) (c : Char) (cs : List Char) (acc : List Token),
        numChar c = true → parseFloat (c :: cs.takeWhile numChar) = none →
        tokenizeAux (fuel + 1) (c :: cs) acc =
          TRes.err (Error.InvalidNumber (String.mk (c :: cs.takeWhile numChar)))) := by
  constructor
  · intro cs v hne hall hpf
    cases cs with
    | nil => exact absurd rfl hne
    | cons c rest =>
      obtain ⟨h1, h2, h3, h4, h5, h6, h7⟩ := numChar_facts c (hall c (by simp))
      have htw : rest.takeWhile numChar = rest :=
        takeWhile_all (fun a ha => hall a (by simp [ha]))
      have hdw : rest.dropWhile numChar = [] :=
        dropWhile_all (fun a ha => hall a (by simp [ha]))
      simp only [tokenize, List.length_cons]
      simp only [tokenizeAux, if_neg h1, if_neg h2, if_neg h3, if_neg h4, if_neg h5,
        if_neg h6, if_neg h7, if_pos (hall c (by simp)), htw, hdw, hpf]
      simp [tokenizeAux]
  · intro fuel c cs acc hc hpf
    obtain ⟨h1, h2, h3, h4, h5, h6, h7⟩ := numChar_facts c hc
    simp only [tokenizeAux, if_neg h1, if_neg h2, if_neg h3, if_neg h4, if_neg h5,
      if_neg h6, if_neg h7, if_pos hc, hpf]

/-- Witness for C4: `"1.5"` tokenizes to `[Number(3/2), EndOfInput]`, and the
run `"1.2.3"` (two dots) makes the tokenizer fail with
`InvalidNumber("1.2.3")`. -/
theorem c4_decimal_literal_tokenization_witness :
    tokenize "1.5".data = TRes.ok [Token.Num (F.finite (mkRat 3 2)), Token.Eof] ∧
    tokenizeAux 6 ('1' :: ".2.3".data) [] =
      TRes.err (Error.InvalidNumber (String.mk ('1' :: ".2.3".data.takeWhile numChar))) :=
  ⟨c4_decimal_literal_tokenization.1 "1.5".data (F.finite (mkRat 3 2)) (by decide)
      (by decide) (by decide),
    c4_decimal_literal_tokenization.2 5 '1' ".2.3".data [] (by decide) (by decide)⟩

theorem isWhitespaceRust_facts (c : Char) (h : isWhitespaceRust c = true) :
    ¬c = '(' ∧ ¬c = ')' ∧ ¬c = '+' ∧ ¬c = '-' ∧ ¬c = '*' ∧ ¬c = '/' ∧ ¬c = 'i' ∧
      numChar c = false := by
  have hmem : c ∈ rustWhitespace := by
    simpa [isWhitespaceRust] using h
  fin_cases hmem <;> decide

theorem tokenizeAux_whitespace :
    ∀ (fuel : Nat) (cs : List Char) (acc : List Token), cs.length < fuel →
      (∀ c ∈ cs, isWhitespaceRust c = true) →
      tokenizeAux fuel cs acc = TRes.ok (acc ++ [Token.Eof]) := by
  intro fuel
  induction fuel with
  | zero => exact fun cs acc h _ => absurd h (Nat.not_lt_zero _)
  | succ fuel ih =>
    intro cs acc hlen hall
    cases cs with
    | nil => simp [tokenizeAux]
    | cons c cs2 =>
      obtain ⟨h1, h2, h3, h4, h5, h6, h7, h8⟩ := isWhitespaceRust_facts c (hall c (by simp))
      simp only [tokenizeAux, if_neg h1, if_neg h2, if_neg h3, if_neg h4, if_neg h5,
        if_neg h6, if_neg h7]
      rw [if_neg (by simp [h8]), if_pos (hall c (by simp))]
      exact ih cs2 acc (by simp at hlen; omega) (fun x hx => hall x (by simp [hx]))

/-- C8: parsing an input consisting only of whitespace (including the empty
input) fails with `InvalidUnaryOperator`: the token sequence is just the
`EndOfInput` sentinel, which sits in a primary/unary position where the
grammar requires an operand. -/
theorem c8_whitespace_only_input (cs : List Char)
    (h : ∀ c ∈ cs, isWhitespaceRust c = true) :
    parseChars cs = Res.err Error.InvalidUnaryOp := by
  have ht : tokenize cs = TRes.ok [Token.Eof] := by
    simpa [tokenize] using tokenizeAux_whitespace (cs.length + 1) cs [] (by omega) h
  unfold parseChars
  rw [ht]
  decide

/-- Witness for C8 at the concrete input `"   "` (three spaces). -/
theorem c8_whitespace_only_input_witness :
    parseChars "   ".data = Res.err Error.InvalidUnaryOp :=
  c8_whitespace_only_input "   ".data (by decide)

theorem Sent.ne_nil {ts : List Token} (h : Sent ts) : ts ≠ [] := by
  obtain ⟨ts', rfl, -⟩ := h
  simp

theorem Sent.tail {t : Token} {ts : List Token} (h : Sent (t :: ts))
    (hne : t ≠ Token.Eof) : Sent ts := by
  obtain ⟨ts', heq, hnin⟩ := h
  cases ts' with
  | nil =>
    simp only [List.nil_append, List.cons.injEq] at heq
    exact absurd heq.1 hne
  | cons a ts'' =>
    simp only [List.cons_append, List.cons.injEq] at heq
    refine ⟨ts'', heq.2, fun hm => hnin ?_⟩
    simp [hm]

theorem tokenEq_end {t e0 : Token} (he : e0 = Token.Eof ∨ e0 = Token.RightParen)
    (h : tokenEq t e0 = true) : t = e0 := by
  rcases he with rfl | rfl <;> cases t <;> simp_all [tokenEq]

theorem is_binary_ne_eof {t : Token} (h : t.is_binary_op = true) :
    t ≠ Token.Eof := by
  cases t <;> simp_all [Token.is_binary_op]

theorem binary_precedence {t : Token} (h : t.is_binary_op = true) :
    ∃ p, t.precedence = some p := by
  cases t <;> simp_all [Token.is_binary_op, Token.precedence]

theorem unary_apply_some {t : Token} (h : t.is_unary_op = true) (e : Expr) :
    ∃ e2, apply_unary t e = some e2 := by
  cases t <;> simp_all [Token.is_unary_op, apply_unary]

theorem binary_apply_some {t : Token} (h : t.is_binary_op = true) (l r : Expr) :
    ∃ e2, apply_binary t l r = some e2 := by
  cases t <;> simp_all [Token.is_binary_op, apply_binary]

theorem tokenizeAux_sent : ∀ (fuel : Nat) (cs : List Char) (acc ts : List Token),
    Token.Eof ∉ acc → tokenizeAux fuel cs acc = TRes.ok ts → Sent ts := by
  intro fuel
  induction fuel with
  | zero => intro cs acc ts _ heq; simp [tokenizeAux] at heq
  | succ fuel ih =>
    intro cs acc ts hacc heq
    cases cs with
    | nil =>
      simp only [tokenizeAux, TRes.ok.injEq] at heq
      exact ⟨acc, heq.symm, hacc⟩
    | cons c cs2 =>
      simp only [tokenizeAux] at heq
      repeat' split at heq
      all_goals first
        | exact ih _ _ _ (by simp [hacc]) heq
        | exact TRes.noConfusion heq

theorem safeRes_err (er : Error) (n : Nat) (P : Prop) : SafeRes (PRes.err er) n P := by
  refine ⟨by simp, by simp, ?_⟩
  intro e r h
  simp at h

theorem safeRes_ok {rest : List Token} {n : Nat} {P : Prop} (e : Expr)
    (hl : rest.length < n) (hp : P → Sent rest) : SafeRes (PRes.ok e rest) n P := by
  refine ⟨by simp, by simp, ?_⟩
  intro e' r' h
  injection h with h1 h2
  subst h2
  exact ⟨hl, hp⟩

theorem safeRes_mono {r : PRes} {m n : Nat} {P : Prop} (h : SafeRes r m P)
    (hmn : m ≤ n) : SafeRes r n P :=
  ⟨h.1, h.2.1, fun e rest he =>
    ⟨lt_of_lt_of_le ((h.2.2 e rest he).1) hmn, (h.2.2 e rest he).2⟩⟩

theorem run_safe : ∀ fuel : Nat,
    (∀ ts, Sent ts → 2 * ts.length + 1 ≤ fuel →
      SafeRes (run fuel (Call.unary ts)) ts.length True) ∧
    (∀ ts e0, Sent ts → (e0 = Token.Eof ∨ e0 = Token.RightParen) →
      2 * ts.length + 2 ≤ fuel →
      SafeRes (run fuel (Call.expr ts e0)) ts.length (e0 = Token.RightParen)) ∧
    (∀ op rest left e0, Token.is_binary_op op = true → Sent (op :: rest) →
      (e0 = Token.Eof ∨ e0 = Token.RightParen) →
      2 * (op :: rest).length + 1 ≤ fuel →
      SafeRes (run fuel (Call.binary (op :: rest) left e0)) (op :: rest).length
        (e0 = Token.RightParen)) := by
  intro fuel
  induction fuel with
  | zero =>
    refine ⟨?_, ?_, ?_⟩
    · intro ts _ hf; exact absurd hf (by omega)
    · intro ts e0 _ _ hf; exact absurd hf (by omega)
    · intro op rest left e0 _ _ _ hf; exact absurd hf (by omega)
  | succ fuel ih =>
    obtain ⟨ihU, ihE, ihB⟩ := ih
    refine ⟨?_, ?_, ?_⟩
    · -- parse_unary
      intro ts hs hf
      cases ts with
      | nil => exact absurd rfl (Sent.ne_nil hs)
      | cons left rest =>
        cases hu : left.is_unary_op with
        | true =>
          have hne : left ≠ Token.Eof := by
            cases left <;> simp_all [Token.is_unary_op]
          have hsr : Sent rest := Sent.tail hs hne
          have hUr := ihU rest hsr (by simp only [List.length_cons] at hf; omega)
          simp only [run]
          rw [if_pos hu]
          rcases hres : run fuel (Call.unary rest) with ⟨e, rest2⟩ | er | _ | _
          · simp only [hres]
            obtain ⟨hlen, hsent⟩ := hUr.2.2 e rest2 hres
            obtain ⟨e2, he2⟩ := unary_apply_some hu e
            simp only [he2]
            refine safeRes_ok e2 ?_ ?_
            · simp only [List.length_cons]; omega
            · exact fun _ => hsent trivial
          · simp only [hres]; exact safeRes_err _ _ _
          · exact absurd hres hUr.1
          · exact absurd hres hUr.2.1
        | false =>
          simp only [run]
          rw [if_neg (by simp [hu])]
          cases left with
          | LeftParen =>
            have hsr : Sent rest := Sent.tail hs (by simp)
            have hE := ihE rest Token.RightParen hsr (Or.inr rfl)
              (by simp only [List.length_cons] at hf; omega)
            refine ⟨hE.1, hE.2.1, ?_⟩
            intro e r h
            obtain ⟨hl, hp⟩ := hE.2.2 e r h
            refine ⟨by simp only [List.length_cons]; omega, fun _ => hp rfl⟩
          | Num v =>
            refine safeRes_ok (Expr.Num v) (by simp) ?_
            exact fun _ => Sent.tail hs (by simp)
          | Plus => simp_all [Token.is_unary_op]
          | Minus => simp_all [Token.is_unary_op]
          | Star => exact safeRes_err _ _ _
          | Slash => exact safeRes_err _ _ _
          | RightParen => exact safeRes_err _ _ _
          | Eof => exact safeRes_err _ _ _
    · -- parse_expr
      intro ts e0 hs he hf
      cases ts with
      | nil => exact absurd rfl (Sent.ne_nil hs)
      | cons t ts2 =>
        have hU := ihU (t :: ts2) hs (by omega)
        simp only [run]
        rcases hres : run fuel (Call.unary (t :: ts2)) with ⟨left, rest⟩ | er | _ | _
        · simp only [hres]
          obtain ⟨hlen, hsent⟩ := hU.2.2 left rest hres
          have hsr : Sent rest := hsent trivial
          cases rest with
          | nil => exact absurd rfl (Sent.ne_nil hsr)
          | cons op rest2 =>
            dsimp only
            cases hte : tokenEq op e0 with
            | true =>
              rw [if_pos rfl]
              refine safeRes_ok left ?_ ?_
              · simp only [List.length_cons] at hlen ⊢; omega
              · intro hrp
                have hop : op = e0 := tokenEq_end he hte
                refine Sent.tail hsr ?_
                rw [hop, hrp]
                simp
            | false =>
              rw [if_neg Bool.false_ne_true]
              cases hob : op.is_binary_op with
              | true =>
                rw [if_pos rfl]
                have hB := ihB op rest2 left e0 hob hsr he (by omega)
                exact safeRes_mono hB (le_of_lt hlen)
              | false =>
                rw [if_neg Bool.false_ne_true]
                exact safeRes_err _ _ _
        · simp only [hres]; exact safeRes_err _ _ _
        · exact absurd hres hU.1
        · exact absurd hres hU.2.1
    · -- parse_binary
      intro op rest left e0 hob hs he hf
      have hsr : Sent rest := Sent.tail hs (is_binary_ne_eof hob)
      have hU := ihU rest hsr (by simp only [List.length_cons] at hf; omega)
      simp only [run]
      rcases hres : run fuel (Call.unary rest) with ⟨right, rest2⟩ | er | _ | _
      · simp only [hres]
        obtain ⟨hlen2, hsent2⟩ := hU.2.2 right rest2 hres
        have hs2 : Sent rest2 := hsent2 trivial
        cases rest2 with
        | nil => exact absurd rfl (Sent.ne_nil hs2)
        | cons next rest3 =>
          dsimp only
          cases hte : tokenEq next e0 with
          | true =>
            rw [if_pos rfl]
            obtain ⟨e2, he2⟩ := binary_apply_some hob left right
            simp only [he2]
            refine safeRes_ok e2 ?_ ?_
            · simp only [List.length_cons] at hlen2 ⊢; omega
            · intro hrp
              have hop : next = e0 := tokenEq_end he hte
              refine Sent.tail hs2 ?_
              rw [hop, hrp]
              simp
          | false =>
            rw [if_neg Bool.false_ne_true]
            cases hnb : next.is_binary_op with
            | true =>
              rw [if_pos rfl]
              obtain ⟨p1, hp1⟩ := binary_precedence hob
              obtain ⟨p2, hp2⟩ := binary_precedence hnb
              simp only [hp1, hp2]
              by_cases hplt : p1 < p2
              · rw [if_pos hplt]
                have hB := ihB next rest3 right e0 hnb hs2 he
                  (by simp only [List.length_cons] at hlen2 hf ⊢; omega)
                rcases hres2 : run fuel (Call.binary (next :: rest3) right e0) with
                  ⟨r2, rest4⟩ | er | _ | _
                · simp only [hres2]
                  obtain ⟨hlen4, hsent4⟩ := hB.2.2 r2 rest4 hres2
                  obtain ⟨e3, he3⟩ := binary_apply_some hob left r2
                  simp only [he3]
                  refine safeRes_ok e3 ?_ hsent4
                  simp only [List.length_cons] at hlen2 hlen4 ⊢
                  omega
                · simp only [hres2]; exact safeRes_err _ _ _
                · exact absurd hres2 hB.1
                · exact absurd hres2 hB.2.1
              · rw [if_neg hplt]
                obtain ⟨e2, he2⟩ := binary_apply_some hob left right
                simp only [he2]
                have hB := ihB next rest3 e2 e0 hnb hs2 he
                  (by simp only [List.length_cons] at hlen2 hf ⊢; omega)
                refine safeRes_mono hB ?_
                simp only [List.length_cons] at hlen2 ⊢
                omega
            | false =>
              rw [if_neg Bool.false_ne_true]
              exact safeRes_err _ _ _
      · simp only [hres]; exact safeRes_err _ _ _
      · exact absurd hres hU.1
      · exact absurd hres hU.2.1

/-- C3: for every token sequence produced by a successful tokenization
(which always ends in the `Eof` sentinel), the parser never panics — every
`peek`/`eat` finds a token, and `precedence`, `apply_unary` and
`apply_binary` are only reached on verified operator tokens — nor does it
exhaust its fuel: `prat` always returns either an expression or one of the
declared error values. -/
theorem c3_parser_never_panics (cs : List Char) (ts : List Token)
    (h : tokenize cs = TRes.ok ts) :
    (∃ e, prat ts = Res.ok e) ∨ (∃ er, prat ts = Res.err er) := by
  have hs : Sent ts := tokenizeAux_sent (cs.length + 1) cs [] ts (by simp) h
  have hE := (run_safe (2 * ts.length + 2)).2.1 ts Token.Eof hs (Or.inl rfl) (le_refl _)
  unfold prat
  rcases hres : run (2 * ts.length + 2) (Call.expr ts Token.Eof) with ⟨e, rest⟩ | er | _ | _
  · exact Or.inl ⟨e, by simp only [hres]⟩
  · exact Or.inr ⟨er, by simp only [hres]⟩
  · exact absurd hres hE.1
  · exact absurd hres hE.2.1

/-- Witness for C3 at the token sequence of `"1+2"`. -/
theorem c3_parser_never_panics_witness :
    (∃ e, prat [Token.Num (F.finite 1), Token.Plus, Token.Num (F.finite 2), Token.Eof] =
        Res.ok e) ∨
    (∃ er, prat [Token.Num (F.finite 1), Token.Plus, Token.Num (F.finite 2), Token.Eof] =
        Res.err er) :=
  c3_parser_never_panics "1+2".data
    [Token.Num (F.finite 1), Token.Plus, Token.Num (F.finite 2), Token.Eof] (by decide)
